import Mathlib

set_option autoImplicit false

/-!
Verification development for the `fuel-ts-hasher` repository: a shallow
embedding of its two near-duplicate encoder variants (`src/src/index.ts`,
namespace `IndexTs`, and `src/unnamed/part_000`, namespace `Part000`)
together with theorems settling the frozen claims about them.

Machine details of the host (JavaScript) that the source relies on are
modelled explicitly: decimal `toString` conversions, `BigInt(string)`
parsing, `parseInt(·, 16)`, `Uint8Array` element conversion (mod 2^8),
`DataView.setBigUint64` (mod 2^64, big-endian) and UTF-8 text encoding.
Strings are modelled as lists of Unicode scalar values (`List Char`);
UTF-16 surrogate details are outside the model.
-/

/-- ASCII decimal digit test: the regular-expression class `\d`. -/
def isDigitChar (c : Char) : Bool := 48 ≤ c.toNat && c.toNat ≤ 57

/-- The test `/^\d+$/.test s`: one or more ASCII digits and nothing else. -/
def allDigits (s : List Char) : Bool := !s.isEmpty && s.all isDigitChar

/-- Decimal digit characters of a natural number, most significant first;
the digit stream produced by the host's decimal `toString` conversions. -/
def natToDigits (m : Nat) : List Char :=
  if _h : m < 10 then [Char.ofNat (48 + m)]
  else natToDigits (m / 10) ++ [Char.ofNat (48 + m % 10)]
decreasing_by exact Nat.div_lt_self (by omega) (by omega)

/-- Numeric value of an all-digit string read back as a number; the
semantics of `BigInt` on a string of decimal digits. -/
def parseDec (s : List Char) : Nat := s.foldl (fun a c => 10 * a + (c.toNat - 48)) 0

theorem toNat_ofNat_digit (d : Nat) (h : d < 10) : (Char.ofNat (48 + d)).toNat = 48 + d := by
  interval_cases d <;> rfl

theorem parseDec_append_digit (xs : List Char) (c : Char) :
    parseDec (xs ++ [c]) = 10 * parseDec xs + (c.toNat - 48) := by
  simp [parseDec, List.foldl_append]

theorem parseDec_natToDigits (m : Nat) : parseDec (natToDigits m) = m := by
  induction m using Nat.strong_induction_on with
  | _ m ih =>
    rw [natToDigits]
    split
    · next h =>
      simp [parseDec, toNat_ofNat_digit m h]
    · next h =>
      rw [parseDec_append_digit, ih (m / 10) (Nat.div_lt_self (by omega) (by omega)),
        toNat_ofNat_digit (m % 10) (Nat.mod_lt m (by omega))]
      omega

theorem natToDigits_mem_digit (m : Nat) : ∀ c ∈ natToDigits m, 48 ≤ c.toNat ∧ c.toNat ≤ 57 := by
  induction m using Nat.strong_induction_on with
  | _ m ih =>
    rw [natToDigits]
    split
    · next h =>
      intro c hc
      simp at hc
      subst hc
      rw [toNat_ofNat_digit m h]
      omega
    · next h =>
      intro c hc
      rw [List.mem_append] at hc
      rcases hc with hc | hc
      · exact ih (m / 10) (Nat.div_lt_self (by omega) (by omega)) c hc
      · simp at hc
        subst hc
        rw [toNat_ofNat_digit (m % 10) (Nat.mod_lt m (by omega))]
        omega

theorem natToDigits_ne_nil (m : Nat) : natToDigits m ≠ [] := by
  rw [natToDigits]
  split <;> simp

theorem allDigits_natToDigits (m : Nat) : allDigits (natToDigits m) = true := by
  have h1 := natToDigits_ne_nil m
  have h2 := natToDigits_mem_digit m
  cases h : natToDigits m with
  | nil => exact absurd h h1
  | cons c cs =>
    rw [h] at h2
    simp [allDigits, isDigitChar]
    constructor
    · have := h2 c (by simp)
      omega
    · intro x hx
      have := h2 x (by simp [hx])
      omega

/-- Sign-and-digits decimal string of an integer: the `toString` of a bigint,
and of a JS number whose value lies in the plain-decimal range. -/
def decString (n : Int) : List Char := (if n < 0 then ['-'] else []) ++ natToDigits n.natAbs

/-- Exponential decimal form of a natural number, as produced by
`Number::toString` for magnitudes of 10^21 and above (`1e+21`, `1.234e+24`, ...):
leading digit, fractional digits with trailing zeros dropped, `e+`, exponent.
(For values a double cannot represent exactly the digits may differ from the
host's shortest-representation digits, but every exponential form contains the
letter `e`, which is all the encoder's behavior depends on.) -/
def expForm (m : Nat) : List Char :=
  match natToDigits m with
  | [] => []
  | d :: rest =>
    let frac := (rest.reverse.dropWhile (fun c => c.toNat == 48)).reverse
    d :: ((if frac.isEmpty then [] else '.' :: frac) ++ 'e' :: '+' :: natToDigits rest.length)

/-- `Number::toString` of an integral JS number, applied to the integer its
rendering denotes (see `Value.vNum`): the digits of that integer, plain
decimal for magnitudes below 10^21 and exponential form at and above it
(ES `Number::toString` switches notation at 21 digits). -/
def numToString (n : Int) : List Char :=
  if n.natAbs < 10 ^ 21 then decString n
  else (if n < 0 then ['-'] else []) ++ expForm n.natAbs

/-- `BigInt(string)` on a string without surrounding whitespace: an optional
sign followed by decimal digits; anything else throws (`none`). The empty
string yields 0n. (The callers below only ever pass `toString` outputs and
regexp-checked digit strings, so whitespace trimming is not modelled.) -/
def bigIntOfString? (s : List Char) : Option Int :=
  match s with
  | [] => some 0
  | c :: rest =>
    if c.toNat = 45 then (if allDigits rest then some (-(parseDec rest : Int)) else none)
    else if c.toNat = 43 then (if allDigits rest then some ((parseDec rest : Int)) else none)
    else if allDigits (c :: rest) then some ((parseDec (c :: rest) : Int)) else none

theorem bigIntOfString_decString (n : Int) : bigIntOfString? (decString n) = some n := by
  rcases lt_or_le n 0 with hn | hn
  · have : decString n = '-' :: natToDigits n.natAbs := by simp [decString, hn]
    rw [this]
    simp only [bigIntOfString?]
    rw [if_pos (by decide), if_pos (allDigits_natToDigits _), parseDec_natToDigits]
    congr 1
    omega
  · have : decString n = natToDigits n.natAbs := by
      simp [decString, not_lt.mpr hn]
    rw [this]
    cases h : natToDigits n.natAbs with
    | nil => exact absurd h (natToDigits_ne_nil _)
    | cons c cs =>
      have hc : 48 ≤ c.toNat ∧ c.toNat ≤ 57 := by
        have := natToDigits_mem_digit n.natAbs c
        rw [h] at this
        exact this (by simp)
      have hall : allDigits (c :: cs) = true := by
        have := allDigits_natToDigits n.natAbs
        rwa [h] at this
      simp only [bigIntOfString?]
      rw [if_neg (by omega), if_neg (by omega), if_pos hall]
      have : parseDec (c :: cs) = n.natAbs := by
        have := parseDec_natToDigits n.natAbs
        rwa [h] at this
      rw [this]
      congr 1
      omega

theorem e_mem_expForm (m : Nat) : 'e' ∈ expForm m := by
  cases h : natToDigits m with
  | nil => exact absurd h (natToDigits_ne_nil _)
  | cons d rest => simp [expForm, h]

theorem allDigits_eq_false_of_mem {s : List Char} {c : Char} (hc : c ∈ s)
    (hd : isDigitChar c = false) : allDigits s = false := by
  have : s.all isDigitChar = false := by
    rw [List.all_eq_false]
    exact ⟨c, hc, by simp [hd]⟩
  simp [allDigits, this]

theorem allDigits_expForm (m : Nat) : allDigits (expForm m) = false :=
  allDigits_eq_false_of_mem (e_mem_expForm m) (by decide)

theorem expForm_head_digit (m : Nat) :
    ∃ d rest, expForm m = d :: rest ∧ 48 ≤ d.toNat ∧ d.toNat ≤ 57 := by
  cases hnd : natToDigits m with
  | nil => exact absurd hnd (natToDigits_ne_nil _)
  | cons d r =>
    have hdig := natToDigits_mem_digit m d (by rw [hnd]; simp)
    refine ⟨d,
      (if ((r.reverse.dropWhile (fun c => c.toNat == 48)).reverse).isEmpty then []
        else '.' :: (r.reverse.dropWhile (fun c => c.toNat == 48)).reverse) ++
        'e' :: '+' :: natToDigits r.length, ?_, hdig.1, hdig.2⟩
    unfold expForm
    rw [hnd]

theorem bigIntOfString_numToString_large (n : Int) (h : 10 ^ 21 ≤ n.natAbs) :
    bigIntOfString? (numToString n) = none := by
  rw [numToString, if_neg (by omega)]
  rcases lt_or_le n 0 with hn | hn
  · simp only [if_pos hn, List.singleton_append, bigIntOfString?]
    rw [if_pos (by decide), if_neg (by simp [allDigits_expForm])]
  · simp only [if_neg (not_lt.mpr hn), List.nil_append]
    obtain ⟨d, rest, hf, hd1, hd2⟩ := expForm_head_digit n.natAbs
    have hall := allDigits_expForm n.natAbs
    rw [hf] at hall
    rw [hf]
    simp only [bigIntOfString?]
    rw [if_neg (by omega), if_neg (by omega), if_neg (by simp [hall])]

/-- `DataView.setBigUint64(0, v, false)` on a fresh 8-byte buffer: the eight
big-endian bytes of `v` reduced modulo 2^64 (`ToBigUint64`). -/
def be64 (n : Int) : List Nat :=
  let m := (n % (2 ^ 64 : Int)).toNat
  [m / 2 ^ 56 % 256, m / 2 ^ 48 % 256, m / 2 ^ 40 % 256, m / 2 ^ 32 % 256,
   m / 2 ^ 24 % 256, m / 2 ^ 16 % 256, m / 2 ^ 8 % 256, m % 256]

/-- UTF-8 encoding of one Unicode scalar (`TextEncoder`). -/
def utf8Char (c : Char) : List Nat :=
  let n := c.toNat
  if n < 0x80 then [n]
  else if n < 0x800 then [0xC0 + n / 64, 0x80 + n % 64]
  else if n < 0x10000 then [0xE0 + n / 4096, 0x80 + n / 64 % 64, 0x80 + n % 64]
  else [0xF0 + n / 0x40000, 0x80 + n / 4096 % 64, 0x80 + n / 64 % 64, 0x80 + n % 64]

/-- `new TextEncoder().encode(s)`: UTF-8 bytes, no prefix, no terminator. -/
def utf8 (s : List Char) : List Nat := (s.map utf8Char).flatten

/-- Whitespace and line terminators trimmed by JS `parseInt`. -/
def isJsSpace (c : Char) : Bool :=
  let n := c.toNat
  n == 32 || n == 9 || n == 10 || n == 11 || n == 12 || n == 13 ||
  n == 160 || n == 0x1680 || (0x2000 ≤ n && n ≤ 0x200A) ||
  n == 0x2028 || n == 0x2029 || n == 0x202F || n == 0x205F || n == 0x3000 || n == 0xFEFF

/-- Value of one hexadecimal digit character, as accepted by `parseInt(·, 16)`. -/
def hexVal? (c : Char) : Option Nat :=
  let n := c.toNat
  if 48 ≤ n ∧ n ≤ 57 then some (n - 48)        -- 0-9
  else if 97 ≤ n ∧ n ≤ 102 then some (n - 87)  -- a-f
  else if 65 ≤ n ∧ n ≤ 70 then some (n - 55)   -- A-F
  else none

/-- JS `parseInt(s, 16)` restricted to strings of at most two characters — the
only shapes `substr(i*2, 2)` produces: trim leading whitespace, allow one sign
(`+`, code 43, or `-`, code 45), strip a literal `0x`/`0X` prefix, then read
the longest prefix of hex digits; no digits read models NaN (`none`). -/
def parseIntHex : List Char → Option Int
  | [] => none
  | [c] =>
    if isJsSpace c then none
    else if c.toNat = 43 ∨ c.toNat = 45 then none
    else (hexVal? c).map Int.ofNat
  | [c1, c2] =>
    if isJsSpace c1 then parseIntHex [c2]
    else if c1.toNat = 45 then (hexVal? c2).map (fun v => -(v : Int))
    else if c1.toNat = 43 then (hexVal? c2).map Int.ofNat
    else if c1.toNat = 48 ∧ (c2.toNat = 120 ∨ c2.toNat = 88) then none
    else
      match hexVal? c1, hexVal? c2 with
      | some v1, some v2 => some (16 * v1 + v2)
      | some v1, none => some v1
      | none, _ => none
  | _ :: _ :: _ :: _ => none

/-- `Uint8Array` element conversion (ToUint8): NaN becomes 0, any other
number is reduced modulo 2^8. -/
def toUint8 : Option Int → Nat
  | none => 0
  | some v => (v % 256).toNat

/-- The hex-decoding loop of the string branch:
`bytes[i] = parseInt(hexStr.substr(i * 2, 2), 16)` for `i` in `0..31`. -/
def hexDecode32 (body : List Char) : List Nat :=
  (List.range 32).map fun i => toUint8 (parseIntHex ((body.drop (2 * i)).take 2))

/-- `input.startsWith("0x")`. -/
def startsWith0x : List Char → Bool
  | '0' :: 'x' :: _ => true
  | _ => false

/-- The string branch, identical in both encoder variants: a `0x`-prefixed
66-character string is decoded as 32 hex bytes, anything else is UTF-8 text. -/
def encodeString (s : List Char) : List Nat :=
  if startsWith0x s && s.length == 66 then hexDecode32 (s.drop 2) else utf8 s

/-- The bytes the specification prescribes for a FixedHash body: byte `i` is
the value of hex characters `2i` and `2i+1`. Spec-side description, to be
compared against the code's `hexDecode32`. -/
def specFixedHashBytes (body : List Char) : List Nat :=
  (List.range 32).map fun i =>
    16 * ((hexVal? (body.getD (2 * i) ' ')).getD 0) +
      ((hexVal? (body.getD (2 * i + 1) ' ')).getD 0)

/-- Dynamically-typed JS values in the domain of the encoder.

`vStr` holds the string's Unicode scalars. `vNum n` is a JS number with an
integral value, identified by the integer `n` that its decimal `toString`
rendering denotes: the host prints the shortest digits that round-trip to
the double, so within the safe-integer range (magnitude at most 2^53) `n`
is the number's exact value, while above it `n` can differ from the exact
value by up to an ULP — the double whose exact value is 2^64 prints
`18446744073709552000` = 2^64 + 384 and is therefore the modelled value
`vNum 18446744073709552000`. The encoder only ever observes a number
through `input.toString()`, so this identification is faithful.
`vNumNonIntegral` stands for any number with a fractional part (its decimal
rendering contains `.` or a negative exponent, so `BigInt` throws on it —
only that fact is used, and its stand-in `toString` below is `0.5`).
`vObj` lists the object's own enumerable string-keyed fields in insertion
order, keys distinct as in a JS object. Host-ecosystem big-number wrapper
objects are outside the modelled universe; functions and symbols (the
genuinely unencodable shapes) are too. -/
inductive Value where
  | vNull
  | vUndefined
  | vStr (s : List Char)
  | vNum (n : Int)
  | vNumNonIntegral
  | vBigInt (n : Int)
  | vBool (b : Bool)
  | vArr (elems : List Value)
  | vObj (fields : List (List Char × Value))

/-- JS property read `obj[key]` over the modelled own fields (first match;
keys in a JS object are distinct). -/
def lookupField : List (List Char × Value) → List Char → Option Value
  | [], _ => none
  | (k, v) :: rest, key => if k = key then some v else lookupField rest key

/-- The property name `"toString"`: an object carrying an own entry under it
shadows `Object.prototype.toString` with a non-callable value. -/
def toStringKey : List Char := ['t', 'o', 'S', 't', 'r', 'i', 'n', 'g']

mutual
/-- The JS string conversion applied to array elements by
`Array.prototype.join` (hence by `Array.prototype.toString`); `none` models
a thrown TypeError. Null and undefined render empty (join treats them
specially, without invoking ToString); arrays render as their comma-joined
elements, a throw on any element propagating. A plain object without an own
`toString` entry renders as `[object Object]` via
`Object.prototype.toString`; one with an own `toString` entry throws: the
entry is a modelled value, never callable, so OrdinaryToPrimitive skips it,
`Object.prototype.valueOf` returns the object itself, and ToPrimitive
throws TypeError. -/
def jsToString : Value → Option (List Char)
  | .vNull => some []
  | .vUndefined => some []
  | .vStr s => some s
  | .vNum n => some (numToString n)
  | .vNumNonIntegral => some ['0', '.', '5']
  | .vBigInt n => some (decString n)
  | .vBool b => some (if b then ['t', 'r', 'u', 'e'] else ['f', 'a', 'l', 's', 'e'])
  | .vArr l => jsToStringList l
  | .vObj fs =>
    match lookupField fs toStringKey with
    | some _ => none
    | none => some ['[', 'o', 'b', 'j', 'e', 'c', 't', ' ', 'O', 'b', 'j', 'e', 'c', 't', ']']

/-- `Array.prototype.join(",")` over the stringified elements, left to
right, the first throw aborting the join. -/
def jsToStringList : List Value → Option (List Char)
  | [] => some []
  | [v] => jsToString v
  | v :: vs =>
    match jsToString v with
    | none => none
    | some s => (jsToStringList vs).map fun rest => s ++ ',' :: rest
end

theorem lookupField_sizeOf {fs : List (List Char × Value)} {key : List Char} {v : Value}
    (h : lookupField fs key = some v) : sizeOf v < sizeOf fs := by
  induction fs with
  | nil => simp [lookupField] at h
  | cons f rest ih =>
    obtain ⟨k, w⟩ := f
    rw [lookupField] at h
    split at h
    · cases h
      simp
      omega
    · have := ih h
      simp
      omega

/-- `args.map(f)` over a fallible `f`, failures propagating: the shape of the
`map`-then-concatenate loops in `encodeMultipleInputs`. -/
def mapOption {a b : Type} (f : a → Option b) : List a → Option (List b)
  | [] => some []
  | x :: xs =>
    match f x with
    | none => none
    | some y => (mapOption f xs).map fun ys => y :: ys

/-- The test `/^[A-Z]/.test(key)`: first character an uppercase ASCII letter. -/
def startsUpper : List Char → Bool
  | [] => false
  | c :: _ => 65 ≤ c.toNat && c.toNat ≤ 90

/-- The conventional vector-wrapper field name `"elements"`. -/
def elementsKey : List Char := ['e', 'l', 'e', 'm', 'e', 'n', 't', 's']

namespace Part000

/-- The `enumContext` parameter of the context variant: entries from enum
name to ordered variant list, in object-entry order. -/
abbrev EnumContext := List (List Char × List (List Char))

/-- `variants.indexOf(tag)`: 0-based index of the first occurrence, `none`
when absent (`variants.includes(tag)` is then `(indexOfTag tag vs).isSome`). -/
def indexOfTag (tag : List Char) : List (List Char) → Option Nat
  | [] => none
  | v :: rest => if v = tag then some 0 else (indexOfTag tag rest).map (· + 1)

/-- The `for (const [enumName, variants] of Object.entries(enumContext))`
loop: the first entry whose variant list contains the tag supplies the
discriminant. -/
def firstMatch (entries : EnumContext) (tag : List Char) : Option Nat :=
  match entries with
  | [] => none
  | (_, variants) :: rest =>
    match indexOfTag tag variants with
    | some i => some i
    | none => firstMatch rest tag

/-- Discriminant resolution of the context variant: no context, or no entry
containing the tag, throws (`none`). -/
def findDiscriminant : Option EnumContext → List Char → Option Nat
  | none, _ => none
  | some entries, tag => firstMatch entries tag

mutual
/-- `encodeInputAsBytes(input, enumContext?)` of `src/unnamed/part_000`;
`none` models a thrown error. The dispatch follows the source order:
null/undefined, string, number/bigint, boolean, the big-number duck-typing
test (`typeof input.toString === "function"` and `/^\d+$/` on the result —
among modelled values only an array can pass it or throw in it: an object
with an own `toString` entry fails the `typeof` guard, since the entry is a
value, not a function; one without renders as `[object Object]`; an array's
`toString` joins its elements and the join can throw), arrays, the
`elements` vector wrapper, then objects as enum (single key matching
`/^[A-Z]/`) or struct.
The single `Uint8Array([discriminant])` write wraps modulo 2^8 (ToUint8). -/
def encodeInputAsBytes : Value → Option EnumContext → Option (List Nat)
  | .vNull, _ => some []
  | .vUndefined, _ => some []
  | .vStr s, _ => some (encodeString s)
  | .vNum n, _ => (bigIntOfString? (numToString n)).map be64
  | .vNumNonIntegral, _ => none
  | .vBigInt n, _ => (bigIntOfString? (decString n)).map be64
  | .vBool b, _ => some [if b then 1 else 0]
  | .vArr l, ctx =>
    match jsToStringList l with
    | none => none
    | some s => if allDigits s then some (be64 (parseDec s)) else encodeList l ctx
  | .vObj fs, ctx => encodeObj fs ctx
termination_by input _ => 3 * sizeOf input
decreasing_by all_goals (simp_wf <;> omega)

/-- The object part of the dispatch: first the vector-wrapper test
(`Array.isArray(input.elements)` re-dispatches on the inner array), then the
enum-or-struct cases. -/
def encodeObj (fs : List (List Char × Value)) (ctx : Option EnumContext) :
    Option (List Nat) :=
  match hElem : lookupField fs elementsKey with
  | some (.vArr l) => encodeInputAsBytes (.vArr l) ctx
  | _ => encodeObjPlain fs ctx
termination_by 3 * sizeOf fs + 2
decreasing_by
  all_goals simp_wf
  all_goals try omega
  all_goals (have hsz := lookupField_sizeOf hElem; simp at hsz; omega)

/-- The enum/struct cases: `enumKeys.length === 1 && keys.length === 1`
(equivalently: exactly one field whose key matches `/^[A-Z]/`) selects the
enum branch, everything else the struct branch. -/
def encodeObjPlain (fs : List (List Char × Value)) (ctx : Option EnumContext) :
    Option (List Nat) :=
  match fs with
  | [(k, v)] =>
    if startsUpper k then
      match findDiscriminant ctx k with
      | some d => (encodeInputAsBytes v ctx).map fun bs => (d % 256) :: bs
      | none => none
    else encodeFields [(k, v)] ctx
  | other => encodeFields other ctx
termination_by 3 * sizeOf fs + 1
decreasing_by all_goals (simp_wf <;> omega)

/-- The element loop of the array branch: encode each element with the same
context and concatenate, failures propagating. -/
def encodeList : List Value → Option EnumContext → Option (List Nat)
  | [], _ => some []
  | v :: vs, ctx =>
    match encodeInputAsBytes v ctx with
    | none => none
    | some b => (encodeList vs ctx).map fun bs => b ++ bs
termination_by l _ => 3 * sizeOf l
decreasing_by all_goals (simp_wf <;> omega)

/-- The field loop of the struct branch: encode each field value in key
order and concatenate, failures propagating. -/
def encodeFields : List (List Char × Value) → Option EnumContext → Option (List Nat)
  | [], _ => some []
  | (_, v) :: rest, ctx =>
    match encodeInputAsBytes v ctx with
    | none => none
    | some b => (encodeFields rest ctx).map fun bs => b ++ bs
termination_by fs _ => 3 * sizeOf fs
decreasing_by all_goals (simp_wf <;> omega)
end

end Part000

namespace Part000

/-- The context-detection test applied to the last argument of
`encodeMultipleInputs`: a non-null, non-array object every own value of
which is an array of strings. -/
def isContextLike : Value → Bool
  | .vObj fs => fs.all fun f =>
      match f.2 with
      | .vArr l => l.all fun x => match x with | .vStr _ => true | _ => false
      | _ => false
  | _ => false

/-- Reading of a context-shaped value as the `enumContext` mapping. (Under
`isContextLike` every field value is an array of strings, so the
`filterMap` below keeps exactly the variant names.) -/
def toEnumContext : Value → EnumContext
  | .vObj fs => fs.map fun f =>
      (f.1, match f.2 with
            | .vArr l => l.filterMap fun x => match x with | .vStr s => some s | _ => none
            | _ => [])
  | _ => []

/-- `encodeMultipleInputs(...args)` of the context variant: a context-shaped
last argument is removed from the argument list and used as the
`enumContext`; the remaining arguments are encoded and concatenated. -/
def encodeMultipleInputs (args : List Value) : Option (List Nat) :=
  match args.getLast? with
  | none => some []
  | some last =>
    if isContextLike last then
      (mapOption (encodeInputAsBytes · (some (toEnumContext last))) args.dropLast).map
        List.flatten
    else (mapOption (encodeInputAsBytes · none) args).map List.flatten

/-- The `Hasher` class of the context variant: the chunk buffer plus the
`enumContext` fixed at construction. -/
structure Hasher where
  buffer : List (List Nat)
  enumContext : Option EnumContext

/-- `new Hasher(enumContext?)`. -/
def mkHasher (ctx : Option EnumContext) : Hasher := ⟨[], ctx⟩

/-- `update(input)`: encode with the instance context, then push the chunk;
a throwing encode (`none`) propagates and pushes nothing. -/
def Hasher.update (h : Hasher) (input : Value) : Option Hasher :=
  (encodeInputAsBytes input h.enumContext).map fun bytes =>
    { h with buffer := h.buffer ++ [bytes] }

/-- The state of the hasher object after `update input` returns or throws:
the source pushes onto `this.buffer` only after `encodeInputAsBytes` has
returned, so a throwing call leaves the object exactly as it was. -/
def Hasher.updateState (h : Hasher) (input : Value) : Hasher := (h.update input).getD h

/-- `getBytes()`: the buffered chunks concatenated in push order. -/
def Hasher.getBytes (h : Hasher) : List Nat := h.buffer.flatten

/-- `finalize()`, with the external `sha256` collaborator abstracted as a
pure function of the concatenated bytes. -/
def Hasher.finalizeWith (hash : List Nat → List Nat) (h : Hasher) : List Nat := hash h.getBytes

/-- `reset()`: clears the buffer, keeps the context. -/
def Hasher.reset (h : Hasher) : Hasher := { h with buffer := [] }

/-- A chain `new Hasher(ctx).update(v1). ... .update(vn)`; the first
throwing update aborts the chain. -/
def runUpdates (h : Hasher) : List Value → Option Hasher
  | [] => some h
  | v :: vs =>
    match h.update v with
    | none => none
    | some h2 => runUpdates h2 vs

/-- Heap of hasher buffers, one cell per `Hasher` instance: `this.buffer`
in the source is a reference to a mutable array, and `clone()` copies the
chunk array (`[...this.buffer]`) into a fresh cell. Modelling the store
explicitly makes that aliasing distinction provable. -/
abbrev BufStore := List (List (List Nat))

/-- A hasher as the JS heap sees it: a buffer reference plus the shared
context reference. -/
structure HasherRef where
  bufRef : Nat
  enumContext : Option EnumContext

/-- `getBytes()` read through the store. -/
def getBytesAt (st : BufStore) (h : HasherRef) : List Nat := (st.getD h.bufRef []).flatten

/-- `update(input)` through the store: on success the referenced cell gets
the new chunk appended; a throw (`none`) leaves every cell untouched. -/
def updateAt (st : BufStore) (h : HasherRef) (input : Value) : Option BufStore :=
  (encodeInputAsBytes input h.enumContext).map fun bytes =>
    st.set h.bufRef ((st.getD h.bufRef []) ++ [bytes])

/-- Store state after `update` returns or throws. -/
def updateAtState (st : BufStore) (h : HasherRef) (input : Value) : BufStore :=
  (updateAt st h input).getD st

/-- `clone()` through the store: allocate a fresh cell holding a copy of the
current chunk list (`[...this.buffer]`); the context reference is shared. -/
def cloneAt (st : BufStore) (h : HasherRef) : BufStore × HasherRef :=
  (st ++ [st.getD h.bufRef []], ⟨st.length, h.enumContext⟩)

end Part000

namespace IndexTs

/-- The `knownVariants` table of `getEnumDiscriminant`. -/
def knownVariants : List (List Char × Nat) :=
  [("Activate".data, 0), ("SendFleet".data, 1), ("Eventual".data, 0),
   ("Known".data, 1), ("Address".data, 0), ("ContractId".data, 1)]

/-- The `variantName in knownVariants` lookup. -/
def lookupKnown : List (List Char × Nat) → List Char → Option Nat
  | [], _ => none
  | (k, d) :: rest, key => if k = key then some d else lookupKnown rest key

/-- 32-bit signed wrap (the coercion applied by JS `<<` and `&`). -/
def toInt32 (n : Int) : Int := (n + 2 ^ 31) % 2 ^ 32 - 2 ^ 31

/-- One iteration of the fallback string hash:
`hash = (hash << 5) - hash + charCode; hash = hash & hash`, where `<<` and
`&` wrap to int32 and the running value entering each step is already an
int32. A character's `charCodeAt` is modelled by its scalar value, accurate
for the Basic Multilingual Plane. -/
def hashStep (h : Int) (c : Char) : Int := toInt32 (toInt32 (h * 32) - h + c.toNat)

/-- `getEnumDiscriminant(variantName)`: the table lookup, with the
`Math.abs(hash) % 256` fallback for unknown names; always at most 255. -/
def getEnumDiscriminant (variantName : List Char) : Nat :=
  match lookupKnown knownVariants variantName with
  | some d => d
  | none => (variantName.foldl hashStep 0).natAbs % 256

mutual
/-- `encodeInputAsBytes(input)` of `src/src/index.ts`; `none` models a
thrown error. Identical to the context variant except in the enum branch,
where the discriminant comes from `getEnumDiscriminant` and never throws.
(See the `Part000` dispatcher for the dispatch-order notes.) -/
def encodeInputAsBytes : Value → Option (List Nat)
  | .vNull => some []
  | .vUndefined => some []
  | .vStr s => some (encodeString s)
  | .vNum n => (bigIntOfString? (numToString n)).map be64
  | .vNumNonIntegral => none
  | .vBigInt n => (bigIntOfString? (decString n)).map be64
  | .vBool b => some [if b then 1 else 0]
  | .vArr l =>
    match jsToStringList l with
    | none => none
    | some s => if allDigits s then some (be64 (parseDec s)) else encodeList l
  | .vObj fs => encodeObj fs
termination_by input => 3 * sizeOf input
decreasing_by all_goals (simp_wf <;> omega)

/-- The object part of the dispatch of the table variant. -/
def encodeObj (fs : List (List Char × Value)) : Option (List Nat) :=
  match hElem : lookupField fs elementsKey with
  | some (.vArr l) => encodeInputAsBytes (.vArr l)
  | _ => encodeObjPlain fs
termination_by 3 * sizeOf fs + 2
decreasing_by
  all_goals simp_wf
  all_goals try omega
  all_goals (have hsz := lookupField_sizeOf hElem; simp at hsz; omega)

/-- The enum/struct cases of the table variant; the `Uint8Array` write of
the discriminant byte wraps modulo 2^8 (ToUint8). -/
def encodeObjPlain (fs : List (List Char × Value)) : Option (List Nat) :=
  match fs with
  | [(k, v)] =>
    if startsUpper k then
      (encodeInputAsBytes v).map fun bs => (getEnumDiscriminant k % 256) :: bs
    else encodeFields [(k, v)]
  | other => encodeFields other
termination_by 3 * sizeOf fs + 1
decreasing_by all_goals (simp_wf <;> omega)

/-- The element loop of the array branch of the table variant. -/
def encodeList : List Value → Option (List Nat)
  | [] => some []
  | v :: vs =>
    match encodeInputAsBytes v with
    | none => none
    | some b => (encodeList vs).map fun bs => b ++ bs
termination_by l => 3 * sizeOf l
decreasing_by all_goals (simp_wf <;> omega)

/-- The field loop of the struct branch of the table variant. -/
def encodeFields : List (List Char × Value) → Option (List Nat)
  | [] => some []
  | (_, v) :: rest =>
    match encodeInputAsBytes v with
    | none => none
    | some b => (encodeFields rest).map fun bs => b ++ bs
termination_by fs => 3 * sizeOf fs
decreasing_by all_goals (simp_wf <;> omega)
end

/-- `encodeMultipleInputs(...args)` of the table variant: no context
detection, every argument is encoded and the chunks concatenated in order. -/
def encodeMultipleInputs (args : List Value) : Option (List Nat) :=
  (mapOption encodeInputAsBytes args).map List.flatten

/-- The `Hasher` class of the table variant: just the chunk buffer. -/
structure Hasher where
  buffer : List (List Nat)

/-- `new Hasher()`. -/
def mkHasher : Hasher := ⟨[]⟩

/-- `update(input)`: encode, then push; a throwing encode pushes nothing. -/
def Hasher.update (h : Hasher) (input : Value) : Option Hasher :=
  (encodeInputAsBytes input).map fun bytes => ⟨h.buffer ++ [bytes]⟩

/-- The state of the hasher object after `update input` returns or throws. -/
def Hasher.updateState (h : Hasher) (input : Value) : Hasher := (h.update input).getD h

/-- `getBytes()`. -/
def Hasher.getBytes (h : Hasher) : List Nat := h.buffer.flatten

/-- `digest()`, with the external `sha256` collaborator abstracted as a pure
function of the concatenated bytes. -/
def Hasher.digestWith (hash : List Nat → List Nat) (h : Hasher) : List Nat := hash h.getBytes

/-- `reset()`. -/
def Hasher.reset (h : Hasher) : Hasher := ⟨[]⟩

/-- `clone()`: fresh instance with a copied chunk list. -/
def Hasher.clone (h : Hasher) : Hasher := ⟨h.buffer⟩

/-- A chain `new Hasher().update(v1). ... .update(vn)`. -/
def runUpdates (h : Hasher) : List Value → Option Hasher
  | [] => some h
  | v :: vs =>
    match h.update v with
    | none => none
    | some h2 => runUpdates h2 vs

end IndexTs

/-! Helper lemmas about the two encoders. -/

theorem p0_encode_vNum_small (n : Int) (ctx : Option Part000.EnumContext)
    (h : n.natAbs < 10 ^ 21) :
    Part000.encodeInputAsBytes (.vNum n) ctx = some (be64 n) := by
  rw [Part000.encodeInputAsBytes, numToString, if_pos h, bigIntOfString_decString]
  rfl

theorem p0_encode_vNum_large (n : Int) (ctx : Option Part000.EnumContext)
    (h : 10 ^ 21 ≤ n.natAbs) :
    Part000.encodeInputAsBytes (.vNum n) ctx = none := by
  rw [Part000.encodeInputAsBytes, bigIntOfString_numToString_large n h]
  rfl

theorem p0_encode_vBigInt (n : Int) (ctx : Option Part000.EnumContext) :
    Part000.encodeInputAsBytes (.vBigInt n) ctx = some (be64 n) := by
  rw [Part000.encodeInputAsBytes, bigIntOfString_decString]
  rfl

theorem ix_encode_vNum_small (n : Int) (h : n.natAbs < 10 ^ 21) :
    IndexTs.encodeInputAsBytes (.vNum n) = some (be64 n) := by
  rw [IndexTs.encodeInputAsBytes, numToString, if_pos h, bigIntOfString_decString]
  rfl

theorem ix_encode_vNum_large (n : Int) (h : 10 ^ 21 ≤ n.natAbs) :
    IndexTs.encodeInputAsBytes (.vNum n) = none := by
  rw [IndexTs.encodeInputAsBytes, bigIntOfString_numToString_large n h]
  rfl

theorem ix_encode_vBigInt (n : Int) :
    IndexTs.encodeInputAsBytes (.vBigInt n) = some (be64 n) := by
  rw [IndexTs.encodeInputAsBytes, bigIntOfString_decString]
  rfl

theorem p0_encodeList_eq_mapOption (l : List Value) (ctx : Option Part000.EnumContext) :
    Part000.encodeList l ctx =
      (mapOption (Part000.encodeInputAsBytes · ctx) l).map List.flatten := by
  induction l with
  | nil => simp [Part000.encodeList, mapOption]
  | cons v vs ih =>
    rw [Part000.encodeList, mapOption]
    cases hv : Part000.encodeInputAsBytes v ctx with
    | none => simp
    | some b =>
      rw [ih]
      cases hvs : mapOption (Part000.encodeInputAsBytes · ctx) vs with
      | none => simp
      | some chunks => simp

theorem ix_encodeList_eq_mapOption (l : List Value) :
    IndexTs.encodeList l = (mapOption IndexTs.encodeInputAsBytes l).map List.flatten := by
  induction l with
  | nil => simp [IndexTs.encodeList, mapOption]
  | cons v vs ih =>
    rw [IndexTs.encodeList, mapOption]
    cases hv : IndexTs.encodeInputAsBytes v with
    | none => simp
    | some b =>
      rw [ih]
      cases hvs : mapOption IndexTs.encodeInputAsBytes vs with
      | none => simp
      | some chunks => simp

theorem p0_encode_vArr_not_digits (l : List Value) (ctx : Option Part000.EnumContext)
    (s : List Char) (hs : jsToStringList l = some s) (h : allDigits s = false) :
    Part000.encodeInputAsBytes (.vArr l) ctx = Part000.encodeList l ctx := by
  rw [Part000.encodeInputAsBytes, hs]
  simp [h]

theorem ix_encode_vArr_not_digits (l : List Value)
    (s : List Char) (hs : jsToStringList l = some s) (h : allDigits s = false) :
    IndexTs.encodeInputAsBytes (.vArr l) = IndexTs.encodeList l := by
  rw [IndexTs.encodeInputAsBytes, hs]
  simp [h]

theorem p0_encode_vArr_throw (l : List Value) (ctx : Option Part000.EnumContext)
    (hs : jsToStringList l = none) :
    Part000.encodeInputAsBytes (.vArr l) ctx = none := by
  rw [Part000.encodeInputAsBytes, hs]

theorem ix_encode_vArr_throw (l : List Value) (hs : jsToStringList l = none) :
    IndexTs.encodeInputAsBytes (.vArr l) = none := by
  rw [IndexTs.encodeInputAsBytes, hs]

theorem p0_runUpdates_eq (ctx : Option Part000.EnumContext) (B : List (List Nat))
    (args : List Value) :
    Part000.runUpdates ⟨B, ctx⟩ args =
      (mapOption (Part000.encodeInputAsBytes · ctx) args).map
        fun chunks => Part000.Hasher.mk (B ++ chunks) ctx := by
  induction args generalizing B with
  | nil => simp [Part000.runUpdates, mapOption]
  | cons v vs ih =>
    rw [Part000.runUpdates, mapOption]
    unfold Part000.Hasher.update
    cases hv : Part000.encodeInputAsBytes v ctx with
    | none => simp
    | some b =>
      simp only [Option.map_some]
      show Part000.runUpdates ⟨B ++ [b], ctx⟩ vs = _
      rw [ih (B ++ [b])]
      cases hvs : mapOption (Part000.encodeInputAsBytes · ctx) vs with
      | none => simp
      | some chunks => simp

theorem ix_runUpdates_eq (B : List (List Nat)) (args : List Value) :
    IndexTs.runUpdates ⟨B⟩ args =
      (mapOption IndexTs.encodeInputAsBytes args).map
        fun chunks => IndexTs.Hasher.mk (B ++ chunks) := by
  induction args generalizing B with
  | nil => simp [IndexTs.runUpdates, mapOption]
  | cons v vs ih =>
    rw [IndexTs.runUpdates, mapOption]
    unfold IndexTs.Hasher.update
    cases hv : IndexTs.encodeInputAsBytes v with
    | none => simp
    | some b =>
      simp only [Option.map_some]
      show IndexTs.runUpdates ⟨B ++ [b]⟩ vs = _
      rw [ih (B ++ [b])]
      cases hvs : mapOption IndexTs.encodeInputAsBytes vs with
      | none => simp
      | some chunks => simp

theorem upper_key_not_elementsKey (k : List Char) (v : Value) (hk : startsUpper k = true) :
    lookupField [(k, v)] elementsKey = none := by
  rw [lookupField, if_neg, lookupField]
  intro heq
  rw [heq] at hk
  exact absurd hk (by decide)

theorem p0_encode_enum (k : List Char) (v : Value) (entries : Part000.EnumContext)
    (d : Nat) (bs : List Nat) (hk : startsUpper k = true)
    (hd : Part000.firstMatch entries k = some d)
    (hv : Part000.encodeInputAsBytes v (some entries) = some bs) :
    Part000.encodeInputAsBytes (.vObj [(k, v)]) (some entries) =
      some ((d % 256) :: bs) := by
  have hl := upper_key_not_elementsKey k v hk
  rw [Part000.encodeInputAsBytes, Part000.encodeObj]
  split
  · next l heq =>
    rw [hl] at heq
    cases heq
  · rw [Part000.encodeObjPlain, if_pos hk, Part000.findDiscriminant, hd, hv]
    rfl

/-! Claim theorems. -/

/-- C10, corrected. As stated the claim fails twice over (see
`claim10_counterexample`): an integral JS number whose rendering reaches
magnitude 10^21 stringifies in exponential form, so
`BigInt(input.toString())` throws; and above the safe-integer range the
host prints shortest round-trip digits, so the bytes encode the rendered
integer, not the number's exact value — the double with exact value 2^64
prints `18446744073709552000` and encodes as 384 mod 2^64, not 0. Amended
claim, proved here: every bigint input encodes to the 8-byte big-endian
form of its value reduced modulo 2^64; a number input whose value is an
integer in the safe range (magnitude at most 2^53, where the rendering is
exact) encodes to the 8-byte big-endian form of its value reduced modulo
2^64, negative values wrapping; more generally any integral number whose
rendering denotes an integer of magnitude below 10^21 encodes to that
rendered integer reduced modulo 2^64; an integral number whose rendering
reaches 10^21 raises an error, and a non-integral number raises an
error. -/
theorem claim10_numeric_encoding (n : Int) :
    IndexTs.encodeInputAsBytes (.vBigInt n) = some (be64 n) ∧
    (n.natAbs ≤ 2 ^ 53 → IndexTs.encodeInputAsBytes (.vNum n) = some (be64 n)) ∧
    (n.natAbs < 10 ^ 21 → IndexTs.encodeInputAsBytes (.vNum n) = some (be64 n)) ∧
    (10 ^ 21 ≤ n.natAbs → IndexTs.encodeInputAsBytes (.vNum n) = none) ∧
    IndexTs.encodeInputAsBytes .vNumNonIntegral = none :=
  ⟨ix_encode_vBigInt n,
   fun h => ix_encode_vNum_small n (by
    have h2 : (2 : Nat) ^ 53 < 10 ^ 21 := by norm_num
    omega),
   ix_encode_vNum_small n, ix_encode_vNum_large n, by
    rw [IndexTs.encodeInputAsBytes]⟩

/-- C10, counterexample to the claim as stated, at two concrete inputs.
First, 10^21 is an integral value of 2^64 or more, yet `encodeInputAsBytes`
fails on it (exponential `toString`) instead of returning its reduction
modulo 2^64. Second, the double whose exact value is 2^64 (representable,
integral, of 2^64 or more) prints the shortest round-trip digits
`18446744073709552000` = 2^64 + 384, so it is the modelled value
`vNum 18446744073709552000`; the code encodes it as 384 mod 2^64 — bytes
`00 00 00 00 00 00 01 80` — and not as its exact value reduced modulo
2^64, which would be eight zero bytes. -/
theorem claim10_counterexample :
    (2 ^ 64 : Int) ≤ 10 ^ 21 ∧
    IndexTs.encodeInputAsBytes (.vNum (10 ^ 21)) = none ∧
    IndexTs.encodeInputAsBytes (.vNum 18446744073709552000) =
      some (be64 18446744073709552000) ∧
    be64 18446744073709552000 = [0, 0, 0, 0, 0, 0, 1, 128] ∧
    be64 (2 ^ 64) = [0, 0, 0, 0, 0, 0, 0, 0] ∧
    ([0, 0, 0, 0, 0, 0, 1, 128] : List Nat) ≠ [0, 0, 0, 0, 0, 0, 0, 0] :=
  ⟨by norm_num, ix_encode_vNum_large _ (by norm_num),
   ix_encode_vNum_small _ (by norm_num), by decide, by decide, by decide⟩

/-- C10, witness: the amended claim instantiated at 5 (safe range) and at
10^21 (exponential rendering). -/
theorem claim10_witness :
    IndexTs.encodeInputAsBytes (.vBigInt 5) = some (be64 5) ∧
    IndexTs.encodeInputAsBytes (.vNum 5) = some (be64 5) ∧
    IndexTs.encodeInputAsBytes (.vNum (10 ^ 21)) = none :=
  ⟨(claim10_numeric_encoding 5).1, (claim10_numeric_encoding 5).2.1 (by norm_num),
   (claim10_numeric_encoding (10 ^ 21)).2.2.2.1 (by norm_num)⟩

/-- C6, corrected. As stated the claim fails twice over: an array whose JS
string conversion (the comma-join of its elements) is one or more decimal
digits is captured by the big-number duck-typing branch, which precedes the
array branch, and is encoded as a u64 instead; and an array containing an
object with an own `toString` entry makes that branch throw inside
`Array.prototype.join`, so nothing is encoded at all even though every
element is encodable elementwise (see `claim6_counterexample`). Amended
claim, proved here for both variants: every array whose string conversion
completes and is not an all-digit string encodes to the concatenation, in
element order, of the encodings of its elements under the same context,
with no count prefix and no separators; an array whose string conversion
throws makes `encodeInputAsBytes` throw. -/
theorem claim6_array_concatenation :
    (∀ (l : List Value) (ctx : Option Part000.EnumContext) (s : List Char),
      jsToStringList l = some s → allDigits s = false →
      Part000.encodeInputAsBytes (.vArr l) ctx =
        (mapOption (Part000.encodeInputAsBytes · ctx) l).map List.flatten) ∧
    (∀ (l : List Value) (s : List Char),
      jsToStringList l = some s → allDigits s = false →
      IndexTs.encodeInputAsBytes (.vArr l) =
        (mapOption IndexTs.encodeInputAsBytes l).map List.flatten) ∧
    (∀ (l : List Value) (ctx : Option Part000.EnumContext),
      jsToStringList l = none → Part000.encodeInputAsBytes (.vArr l) ctx = none) ∧
    (∀ l : List Value,
      jsToStringList l = none → IndexTs.encodeInputAsBytes (.vArr l) = none) := by
  refine ⟨?_, ?_, p0_encode_vArr_throw, ix_encode_vArr_throw⟩
  · intro l ctx s hs h
    rw [p0_encode_vArr_not_digits l ctx s hs h, p0_encodeList_eq_mapOption]
  · intro l s hs h
    rw [ix_encode_vArr_not_digits l s hs h, ix_encodeList_eq_mapOption]

/-- C6, counterexample to the claim as stated, at two concrete arrays. The
one-element array `["5"]` stringifies to `"5"`, all digits, so it is encoded
as the u64 value 5 — not as the concatenation of its elements' encodings,
which would be the single UTF-8 byte 0x35. And the one-element array
`[{toString: "5"}]` throws — `Array.prototype.join` hits the TypeError of
stringifying an object with an own non-callable `toString` — even though
its element alone encodes fine (a one-field struct, bytes 0x35). -/
theorem claim6_counterexample :
    (IndexTs.encodeInputAsBytes (.vArr [.vStr ['5']]) = some [0, 0, 0, 0, 0, 0, 0, 5] ∧
      (mapOption IndexTs.encodeInputAsBytes [Value.vStr ['5']]).map List.flatten =
        some [53] ∧
      IndexTs.encodeInputAsBytes (.vArr [.vStr ['5']]) ≠
        (mapOption IndexTs.encodeInputAsBytes [Value.vStr ['5']]).map List.flatten) ∧
    (IndexTs.encodeInputAsBytes (.vArr [.vObj [(toStringKey, .vStr ['5'])]]) = none ∧
      (mapOption IndexTs.encodeInputAsBytes [Value.vObj [(toStringKey, .vStr ['5'])]]).map
        List.flatten = some [53] ∧
      IndexTs.encodeInputAsBytes (.vArr [.vObj [(toStringKey, .vStr ['5'])]]) ≠
        (mapOption IndexTs.encodeInputAsBytes
          [Value.vObj [(toStringKey, .vStr ['5'])]]).map List.flatten) := by
  have h5 : IndexTs.encodeInputAsBytes (.vStr ['5']) = some [53] := by
    rw [IndexTs.encodeInputAsBytes]
    decide
  have harr : IndexTs.encodeInputAsBytes (.vArr [.vStr ['5']]) =
      some [0, 0, 0, 0, 0, 0, 0, 5] := by
    have hjs : jsToStringList [Value.vStr ['5']] = some ['5'] := by
      rw [jsToStringList, jsToString]
    rw [IndexTs.encodeInputAsBytes, hjs]
    decide
  have hm1 : (mapOption IndexTs.encodeInputAsBytes [Value.vStr ['5']]).map List.flatten =
      some [53] := by
    rw [mapOption, h5, mapOption]
    rfl
  have hobj : IndexTs.encodeInputAsBytes (.vObj [(toStringKey, .vStr ['5'])]) =
      some [53] := by
    rw [IndexTs.encodeInputAsBytes, IndexTs.encodeObj]
    split
    · next l heq =>
      rw [show lookupField [(toStringKey, Value.vStr ['5'])] elementsKey = none from by
        rw [lookupField, if_neg (by decide), lookupField]] at heq
      cases heq
    · rw [IndexTs.encodeObjPlain, if_neg (by decide), IndexTs.encodeFields, h5,
        IndexTs.encodeFields]
      rfl
  have hthrow : jsToStringList [Value.vObj [(toStringKey, Value.vStr ['5'])]] = none := by
    rw [jsToStringList, jsToString]
    decide
  have harr2 : IndexTs.encodeInputAsBytes (.vArr [.vObj [(toStringKey, .vStr ['5'])]]) =
      none := ix_encode_vArr_throw _ hthrow
  have hm2 : (mapOption IndexTs.encodeInputAsBytes
      [Value.vObj [(toStringKey, .vStr ['5'])]]).map List.flatten = some [53] := by
    rw [mapOption, hobj, mapOption]
    rfl
  refine ⟨⟨harr, hm1, ?_⟩, harr2, hm2, ?_⟩
  · rw [harr, hm1]
    decide
  · rw [harr2, hm2]
    decide

/-- C6, witness: the amended claim at the concrete array `[true, "hi"]`,
whose string conversion `"true,hi"` is not all digits. -/
theorem claim6_witness :
    Part000.encodeInputAsBytes (.vArr [.vBool true, .vStr ['h', 'i']]) none =
      (mapOption (Part000.encodeInputAsBytes · none)
        [Value.vBool true, Value.vStr ['h', 'i']]).map List.flatten :=
  claim6_array_concatenation.1 [Value.vBool true, Value.vStr ['h', 'i']] none
    ['t', 'r', 'u', 'e', ',', 'h', 'i']
    (by simp only [jsToStringList, jsToString]; decide) (by decide)

/-- C4, corrected. The claim's general statement fails when the resolved
index exceeds 255: the `Uint8Array([discriminant])` write wraps modulo 2^8,
so the emitted byte is the index mod 256, not the index itself (see
`claim4_counterexample`); the entry considered is the first one in context
order whose variant list contains the key. Amended claim, proved here: for
every object with exactly one key whose first character is an uppercase
ASCII letter, when the context search finds the key at 0-based index `d` of
the first entry containing it and the inner value encodes to `bs`, the
result is one byte equal to `d` modulo 256 followed by `bs`; and the claim's
concrete vector holds: `encode {Activate: 5}` under
`{Kind: ["Activate", "SendFleet"]}` is the byte 0x00 followed by the 8-byte
big-endian encoding of 5. -/
theorem claim4_tagged_union :
    (∀ (k : List Char) (v : Value) (entries : Part000.EnumContext) (d : Nat)
      (bs : List Nat),
      startsUpper k = true →
      Part000.firstMatch entries k = some d →
      Part000.encodeInputAsBytes v (some entries) = some bs →
      Part000.encodeInputAsBytes (.vObj [(k, v)]) (some entries) =
        some ((d % 256) :: bs)) ∧
    Part000.encodeInputAsBytes (.vObj [("Activate".data, .vNum 5)])
        (some [("Kind".data, ["Activate".data, "SendFleet".data])]) =
      some [0, 0, 0, 0, 0, 0, 0, 0, 5] := by
  constructor
  · exact p0_encode_enum
  · have h5 : Part000.encodeInputAsBytes (.vNum 5)
        (some [("Kind".data, ["Activate".data, "SendFleet".data])]) = some (be64 5) :=
      p0_encode_vNum_small 5 _ (by norm_num)
    have h := p0_encode_enum "Activate".data (.vNum 5)
      [("Kind".data, ["Activate".data, "SendFleet".data])] 0 (be64 5)
      (by decide) (by decide) h5
    rw [h]
    decide

set_option maxRecDepth 40000 in
/-- C4, counterexample to the claim as stated: under a context whose single
entry lists the tag `B` at index 256, the object `{B: null}` encodes with
discriminant byte 0, not 256 — the emitted byte is not the key's 0-based
index. -/
theorem claim4_counterexample :
    Part000.indexOfTag ['B'] (List.replicate 256 ['A'] ++ [['B']]) = some 256 ∧
    Part000.encodeInputAsBytes (.vObj [(['B'], .vNull)])
        (some [(['K'], List.replicate 256 ['A'] ++ [['B']])]) = some [0] ∧
    ¬ (Part000.encodeInputAsBytes (.vObj [(['B'], .vNull)])
        (some [(['K'], List.replicate 256 ['A'] ++ [['B']])]) = some [256]) := by
  have h := p0_encode_enum ['B'] .vNull [(['K'], List.replicate 256 ['A'] ++ [['B']])]
    256 [] (by decide) (by decide) (by rw [Part000.encodeInputAsBytes])
  refine ⟨by decide, ?_, ?_⟩
  · rw [h]
  · rw [h]
    decide

/-- C4, witness: the amended claim at `{Q: false}` under
`{E: ["P", "Q"]}`, discriminant 1. -/
theorem claim4_witness :
    Part000.encodeInputAsBytes (.vObj [(['Q'], .vBool false)])
        (some [(['E'], [['P'], ['Q']])]) = some ((1 % 256) :: [0]) :=
  claim4_tagged_union.1 ['Q'] (.vBool false) [(['E'], [['P'], ['Q']])] 1 [0]
    (by decide) (by decide) (by rw [Part000.encodeInputAsBytes]; decide)

/-- C5, corrected. The claim says encoding fails when the resolved
discriminant exceeds 255; it does not: the discriminant byte is written
through `Uint8Array`, which wraps modulo 2^8, so encoding succeeds and
emits the index mod 256 (see `claim5_counterexample`, index 300, byte 44).
Amended claim, proved here: with the tag found at index `d` and an
encodable inner value the encoding always succeeds, the discriminant byte
is `d` mod 256, and it equals the resolved index itself exactly when that
index is at most 255. -/
theorem claim5_discriminant_byte (k : List Char) (v : Value)
    (entries : Part000.EnumContext) (d : Nat) (bs : List Nat)
    (hk : startsUpper k = true)
    (hd : Part000.firstMatch entries k = some d)
    (hv : Part000.encodeInputAsBytes v (some entries) = some bs) :
    (Part000.encodeInputAsBytes (.vObj [(k, v)]) (some entries)).isSome = true ∧
    Part000.encodeInputAsBytes (.vObj [(k, v)]) (some entries) =
      some ((d % 256) :: bs) ∧
    (d ≤ 255 → d % 256 = d) := by
  have h := p0_encode_enum k v entries d bs hk hd hv
  exact ⟨by rw [h]; rfl, h, fun hle => Nat.mod_eq_of_lt (by omega)⟩

set_option maxRecDepth 40000 in
/-- C5, counterexample to the claim as stated: a discriminant resolving to
300 does not make `encodeInputAsBytes` fail; it produces output whose first
byte is 300 mod 256 = 44. -/
theorem claim5_counterexample :
    Part000.indexOfTag ['C'] (List.replicate 300 ['A'] ++ [['C']]) = some 300 ∧
    Part000.encodeInputAsBytes (.vObj [(['C'], .vBool true)])
        (some [(['K'], List.replicate 300 ['A'] ++ [['C']])]) = some [44, 1] := by
  have hb : Part000.encodeInputAsBytes (.vBool true)
      (some [(['K'], List.replicate 300 ['A'] ++ [['C']])]) = some [1] := by
    rw [Part000.encodeInputAsBytes]
    decide
  have h := p0_encode_enum ['C'] (.vBool true)
    [(['K'], List.replicate 300 ['A'] ++ [['C']])] 300 [1]
    (by decide) (by decide) hb
  refine ⟨by decide, ?_⟩
  rw [h]

/-- C5, witness: the amended claim at `{Z: null}` under `{K: ["Z"]}`,
discriminant 0. -/
theorem claim5_witness :
    (Part000.encodeInputAsBytes (.vObj [(['Z'], .vNull)])
        (some [(['K'], [['Z']])])).isSome = true ∧
    Part000.encodeInputAsBytes (.vObj [(['Z'], .vNull)])
        (some [(['K'], [['Z']])]) = some ((0 % 256) :: []) ∧
    ((0 : Nat) ≤ 255 → 0 % 256 = 0) :=
  claim5_discriminant_byte ['Z'] .vNull [(['K'], [['Z']])] 0 []
    (by decide) (by decide) (by rw [Part000.encodeInputAsBytes])

/-- C1, corrected. In the context variant the claim as stated fails: when
the second value is context-shaped (an object all of whose own values are
arrays of strings), `encodeMultipleInputs` removes it and uses it as the
`enumContext` instead of encoding it (see `claim1_counterexample`). Amended
claim, proved here: for any two independently encodable values the bytes of
`encodeMultipleInputs(a, b)` are `encode(a) ++ encode(b)` — unconditionally
in the table variant, and in the context variant provided the trailing
value is not context-shaped. -/
theorem claim1_concat_law :
    (∀ (a b : Value) (x y : List Nat),
      IndexTs.encodeInputAsBytes a = some x →
      IndexTs.encodeInputAsBytes b = some y →
      IndexTs.encodeMultipleInputs [a, b] = some (x ++ y)) ∧
    (∀ (a b : Value) (x y : List Nat),
      Part000.isContextLike b = false →
      Part000.encodeInputAsBytes a none = some x →
      Part000.encodeInputAsBytes b none = some y →
      Part000.encodeMultipleInputs [a, b] = some (x ++ y)) := by
  constructor
  · intro a b x y ha hb
    simp [IndexTs.encodeMultipleInputs, mapOption, ha, hb]
  · intro a b x y hctx ha hb
    have hl : [a, b].getLast? = some b := rfl
    rw [Part000.encodeMultipleInputs, hl]
    simp [hctx, mapOption, ha, hb]

/-- C1, counterexample to the claim as stated: with `a = null` and
`b = {k: ["a"]}` — both independently encodable, `b` encoding to the single
UTF-8 byte 0x61 — the context variant's `encodeMultipleInputs(a, b)`
returns the empty byte string, not `encode(a) ++ encode(b)`, because `b`
matches the context shape and is consumed as the `enumContext`. -/
theorem claim1_counterexample :
    Part000.encodeInputAsBytes Value.vNull none = some [] ∧
    Part000.encodeInputAsBytes (.vObj [(['k'], .vArr [.vStr ['a']])]) none = some [97] ∧
    Part000.encodeMultipleInputs [Value.vNull, .vObj [(['k'], .vArr [.vStr ['a']])]] =
      some [] ∧
    ¬ (Part000.encodeMultipleInputs [Value.vNull, .vObj [(['k'], .vArr [.vStr ['a']])]] =
        some (([] : List Nat) ++ [97])) := by
  have hb : Part000.encodeInputAsBytes (.vObj [(['k'], .vArr [.vStr ['a']])]) none =
      some [97] := by
    simp only [Part000.encodeInputAsBytes, Part000.encodeObj, Part000.encodeObjPlain,
      Part000.encodeList, Part000.encodeFields, lookupField, elementsKey, startsUpper,
      jsToStringList, jsToString]
    decide
  have hm : Part000.encodeMultipleInputs
      [Value.vNull, .vObj [(['k'], .vArr [.vStr ['a']])]] = some [] := by
    simp only [Part000.encodeMultipleInputs, Part000.isContextLike, Part000.toEnumContext,
      mapOption, Part000.encodeInputAsBytes, List.getLast?, List.dropLast]
    decide
  exact ⟨by rw [Part000.encodeInputAsBytes], hb, hm, by rw [hm]; decide⟩

/-- C1, witness: the amended claim at `a = true`, `b = "h"`, in both
variants. -/
theorem claim1_witness :
    IndexTs.encodeMultipleInputs [.vBool true, .vStr ['h']] = some ([1] ++ [104]) ∧
    Part000.encodeMultipleInputs [.vBool true, .vStr ['h']] = some ([1] ++ [104]) :=
  ⟨claim1_concat_law.1 (.vBool true) (.vStr ['h']) [1] [104]
      (by rw [IndexTs.encodeInputAsBytes]; decide)
      (by rw [IndexTs.encodeInputAsBytes]; decide),
   claim1_concat_law.2 (.vBool true) (.vStr ['h']) [1] [104]
      (by decide)
      (by rw [Part000.encodeInputAsBytes]; decide)
      (by rw [Part000.encodeInputAsBytes]; decide)⟩

/-- C2, corrected. In the context variant the claim as stated fails: when
the last appended value is context-shaped, `encodeMultipleInputs` consumes
it as the `enumContext` while the `Hasher` chain encodes it, so the bytes
differ (see `claim2_counterexample`). Amended claim, proved here: a fresh
`Hasher` updated with v1..vn in order yields, via `getBytes`, exactly the
bytes of `encodeMultipleInputs(v1, ..., vn)` — unconditionally in the table
variant, and in the context variant whenever the last value is not
context-shaped (with both sides also failing in unison when some value is
unencodable). -/
theorem claim2_accumulator_equiv :
    (∀ args : List Value,
      (IndexTs.runUpdates IndexTs.mkHasher args).map IndexTs.Hasher.getBytes =
        IndexTs.encodeMultipleInputs args) ∧
    (∀ args : List Value,
      (∀ last, args.getLast? = some last → Part000.isContextLike last = false) →
      (Part000.runUpdates (Part000.mkHasher none) args).map Part000.Hasher.getBytes =
        Part000.encodeMultipleInputs args) := by
  constructor
  · intro args
    rw [show IndexTs.mkHasher = ⟨[]⟩ from rfl, ix_runUpdates_eq,
      IndexTs.encodeMultipleInputs]
    cases h : mapOption IndexTs.encodeInputAsBytes args with
    | none => simp
    | some chunks => simp [IndexTs.Hasher.getBytes]
  · intro args hlast
    rcases List.eq_nil_or_concat args with rfl | ⟨ys, y, rfl⟩
    · simp [Part000.mkHasher, Part000.runUpdates, Part000.encodeMultipleInputs,
        Part000.Hasher.getBytes]
    · simp only [List.concat_eq_append] at hlast ⊢
      have hl : (ys ++ [y]).getLast? = some y := List.getLast?_concat ys
      have hy : Part000.isContextLike y = false := hlast y hl
      rw [show Part000.mkHasher none = ⟨[], none⟩ from rfl, p0_runUpdates_eq,
        Part000.encodeMultipleInputs, hl]
      simp only [hy, Bool.false_eq_true, if_false]
      cases h : mapOption (Part000.encodeInputAsBytes · none) (ys ++ [y]) with
      | none => simp [h]
      | some chunks => simp [h, Part000.Hasher.getBytes]

/-- C2, counterexample to the claim as stated: for the single value
`{k: ["a"]}` the fresh-hasher chain yields the byte 0x61, while
`encodeMultipleInputs` on the same argument list yields the empty byte
string (it consumes the context-shaped argument as the `enumContext`). -/
theorem claim2_counterexample :
    (Part000.runUpdates (Part000.mkHasher none)
        [.vObj [(['k'], .vArr [.vStr ['a']])]]).map Part000.Hasher.getBytes =
      some [97] ∧
    Part000.encodeMultipleInputs [.vObj [(['k'], .vArr [.vStr ['a']])]] = some [] ∧
    ¬ ((Part000.runUpdates (Part000.mkHasher none)
        [.vObj [(['k'], .vArr [.vStr ['a']])]]).map Part000.Hasher.getBytes =
      Part000.encodeMultipleInputs [.vObj [(['k'], .vArr [.vStr ['a']])]]) := by
  have he : Part000.encodeInputAsBytes (.vObj [(['k'], .vArr [.vStr ['a']])]) none =
      some [97] := by
    simp only [Part000.encodeInputAsBytes, Part000.encodeObj, Part000.encodeObjPlain,
      Part000.encodeList, Part000.encodeFields, lookupField, elementsKey, startsUpper,
      jsToStringList, jsToString]
    decide
  have h1 : (Part000.runUpdates (Part000.mkHasher none)
      [.vObj [(['k'], .vArr [.vStr ['a']])]]).map Part000.Hasher.getBytes =
      some [97] := by
    simp [Part000.runUpdates, Part000.mkHasher, Part000.Hasher.update, he,
      Part000.Hasher.getBytes]
  have h2 : Part000.encodeMultipleInputs [.vObj [(['k'], .vArr [.vStr ['a']])]] =
      some [] := by
    simp only [Part000.encodeMultipleInputs, Part000.isContextLike,
      Part000.toEnumContext, mapOption, List.getLast?, List.dropLast]
    decide
  exact ⟨h1, h2, by rw [h1, h2]; decide⟩

/-- C2, witness: the amended claim at the one-value sequence `[true]`, in
both variants. -/
theorem claim2_witness :
    (IndexTs.runUpdates IndexTs.mkHasher [.vBool true]).map IndexTs.Hasher.getBytes =
      IndexTs.encodeMultipleInputs [.vBool true] ∧
    (Part000.runUpdates (Part000.mkHasher none) [.vBool true]).map
        Part000.Hasher.getBytes =
      Part000.encodeMultipleInputs [.vBool true] :=
  ⟨claim2_accumulator_equiv.1 [.vBool true],
   claim2_accumulator_equiv.2 [.vBool true] (by
    intro last h
    have h2 : some (Value.vBool true) = some last := h
    cases h2
    decide)⟩

/-- C7, confirmed, for both variants: when `update(input)` raises (the
encode step returns `none`), the hasher object is left exactly as it was —
the push happens only after a successful encode, so the buffer is unchanged
and a subsequent `getBytes()` returns the same bytes as before the failed
update; no partial chunk is pushed. -/
theorem claim7_failed_update_preserves_buffer :
    (∀ (h : IndexTs.Hasher) (v : Value),
      h.update v = none →
      (h.updateState v).buffer = h.buffer ∧
      (h.updateState v).getBytes = h.getBytes) ∧
    (∀ (h : Part000.Hasher) (v : Value),
      h.update v = none →
      (h.updateState v).buffer = h.buffer ∧
      (h.updateState v).getBytes = h.getBytes) := by
  constructor
  · intro h v hfail
    simp [IndexTs.Hasher.updateState, hfail]
  · intro h v hfail
    simp [Part000.Hasher.updateState, hfail]

/-- C7, witness: a failing update (a non-integral number in the table
variant; an unregistered enum tag in the context variant) leaves the
concrete one-chunk buffer untouched. -/
theorem claim7_witness :
    ((IndexTs.Hasher.updateState ⟨[[1]]⟩ .vNumNonIntegral).buffer =
        (IndexTs.Hasher.mk [[1]]).buffer ∧
      (IndexTs.Hasher.updateState ⟨[[1]]⟩ .vNumNonIntegral).getBytes =
        (IndexTs.Hasher.mk [[1]]).getBytes) ∧
    ((Part000.Hasher.updateState ⟨[[1]], none⟩ (.vObj [(['A'], .vNull)])).buffer =
        (Part000.Hasher.mk [[1]] none).buffer ∧
      (Part000.Hasher.updateState ⟨[[1]], none⟩ (.vObj [(['A'], .vNull)])).getBytes =
        (Part000.Hasher.mk [[1]] none).getBytes) :=
  ⟨claim7_failed_update_preserves_buffer.1 ⟨[[1]]⟩ .vNumNonIntegral (by
      simp [IndexTs.Hasher.update, IndexTs.encodeInputAsBytes]),
   claim7_failed_update_preserves_buffer.2 ⟨[[1]], none⟩ (.vObj [(['A'], .vNull)]) (by
      have he : Part000.encodeInputAsBytes (.vObj [(['A'], .vNull)]) none = none := by
        simp only [Part000.encodeInputAsBytes, Part000.encodeObj, Part000.encodeObjPlain,
          lookupField, elementsKey, startsUpper, Part000.findDiscriminant]
        decide
      simp [Part000.Hasher.update, he])⟩

/-- C9, confirmed (table variant, the one the claim cites): null, undefined,
the empty array and the empty plain object all encode to the empty byte
sequence, so appending any of them to a `Hasher` leaves `getBytes()` — and
hence the digest, which is the external hash applied to those bytes —
unchanged. -/
theorem claim9_empty_inputs :
    IndexTs.encodeInputAsBytes .vNull = some [] ∧
    IndexTs.encodeInputAsBytes .vUndefined = some [] ∧
    IndexTs.encodeInputAsBytes (.vArr []) = some [] ∧
    IndexTs.encodeInputAsBytes (.vObj []) = some [] ∧
    (∀ (h : IndexTs.Hasher) (v : Value),
      (v = .vNull ∨ v = .vUndefined ∨ v = .vArr [] ∨ v = .vObj []) →
      (h.update v).map IndexTs.Hasher.getBytes = some h.getBytes ∧
      ∀ f, (h.update v).map (IndexTs.Hasher.digestWith f) = some (h.digestWith f)) := by
  have h1 : IndexTs.encodeInputAsBytes .vNull = some [] := by
    rw [IndexTs.encodeInputAsBytes]
  have h2 : IndexTs.encodeInputAsBytes .vUndefined = some [] := by
    rw [IndexTs.encodeInputAsBytes]
  have h3 : IndexTs.encodeInputAsBytes (.vArr []) = some [] := by
    rw [IndexTs.encodeInputAsBytes, jsToStringList]
    simp [allDigits, IndexTs.encodeList]
  have h4 : IndexTs.encodeInputAsBytes (.vObj []) = some [] := by
    simp only [IndexTs.encodeInputAsBytes, IndexTs.encodeObj, lookupField,
      IndexTs.encodeObjPlain, IndexTs.encodeFields]
  refine ⟨h1, h2, h3, h4, ?_⟩
  intro h v hv
  have he : IndexTs.encodeInputAsBytes v = some [] := by
    rcases hv with rfl | rfl | rfl | rfl
    · exact h1
    · exact h2
    · exact h3
    · exact h4
  rw [IndexTs.Hasher.update, he]
  constructor
  · simp [IndexTs.Hasher.getBytes]
  · intro f
    simp [IndexTs.Hasher.digestWith, IndexTs.Hasher.getBytes]

/-- C9, witness: appending `null` to a hasher holding one chunk `[2]`
changes neither `getBytes` nor the digest under a stand-in hash function. -/
theorem claim9_witness :
    (IndexTs.Hasher.update ⟨[[2]]⟩ .vNull).map IndexTs.Hasher.getBytes =
      some (IndexTs.Hasher.getBytes ⟨[[2]]⟩) ∧
    (IndexTs.Hasher.update ⟨[[2]]⟩ .vNull).map
        (IndexTs.Hasher.digestWith (fun bs => 0 :: bs)) =
      some (IndexTs.Hasher.digestWith (fun bs => 0 :: bs) ⟨[[2]]⟩) := by
  have h := claim9_empty_inputs.2.2.2.2 ⟨[[2]]⟩ .vNull (Or.inl rfl)
  exact ⟨h.1, h.2 _⟩

theorem getD_set_ne {a : Type} (l : List a) (i j : Nat) (x d : a) (hij : i ≠ j) :
    (l.set i x).getD j d = l.getD j d := by
  simp [List.getD_eq_getElem?_getD, List.getElem?_set_ne hij]

/-- C8, confirmed, on the store model of the context variant (the variant
whose hashers carry a context): after `a2 = a1.clone()`, the clone holds the
same context reference but a fresh buffer cell, so updating `a2` — whether
the update succeeds or throws — leaves `a1.getBytes()` unchanged, and
symmetrically updating `a1` leaves `a2`'s bytes unchanged. -/
theorem claim8_clone_isolation (st : Part000.BufStore) (h : Part000.HasherRef)
    (x : Value) (hlt : h.bufRef < st.length) :
    (Part000.cloneAt st h).2.enumContext = h.enumContext ∧
    (Part000.cloneAt st h).2.bufRef ≠ h.bufRef ∧
    Part000.getBytesAt (Part000.cloneAt st h).1 h = Part000.getBytesAt st h ∧
    Part000.getBytesAt
        (Part000.updateAtState (Part000.cloneAt st h).1 (Part000.cloneAt st h).2 x) h =
      Part000.getBytesAt st h ∧
    Part000.getBytesAt
        (Part000.updateAtState (Part000.cloneAt st h).1 h x) (Part000.cloneAt st h).2 =
      Part000.getBytesAt (Part000.cloneAt st h).1 (Part000.cloneAt st h).2 := by
  have hne : (st.length : Nat) ≠ h.bufRef := by omega
  have hcell : ∀ c : List (List Nat), (st ++ [c])[h.bufRef]? = st[h.bufRef]? :=
    fun _ => List.getElem?_append_left hlt
  have hcell2 : ∀ (l : Part000.BufStore) (c : List (List Nat)), l.length = st.length →
      (l ++ [c])[st.length]? = some c := by
    intro l c hl
    rw [List.getElem?_append_right (by omega)]
    simp [hl]
  have hbytes : Part000.getBytesAt (Part000.cloneAt st h).1 h =
      Part000.getBytesAt st h := by
    simp [Part000.cloneAt, Part000.getBytesAt, List.getD_eq_getElem?_getD, hcell]
  refine ⟨rfl, by simp [Part000.cloneAt]; omega, hbytes, ?_, ?_⟩
  · simp only [Part000.updateAtState, Part000.updateAt, Part000.cloneAt,
      Part000.getBytesAt]
    cases he : Part000.encodeInputAsBytes x h.enumContext with
    | none => simp [List.getD_eq_getElem?_getD, hcell]
    | some b => simp [List.getD_eq_getElem?_getD, List.getElem?_set_ne hne, hcell]
  · simp only [Part000.updateAtState, Part000.updateAt, Part000.cloneAt,
      Part000.getBytesAt]
    cases he : Part000.encodeInputAsBytes x h.enumContext with
    | none => rfl
    | some b =>
      simp [List.getD_eq_getElem?_getD, List.getElem?_set_ne (Ne.symm hne), hcell2]

/-- C8, witness: a one-cell store, a hasher referring to cell 0 holding the
chunk `[1]`, and an update with `true`. -/
theorem claim8_witness :
    (Part000.cloneAt [[[1]]] ⟨0, none⟩).2.enumContext = none ∧
    (Part000.cloneAt [[[1]]] ⟨0, none⟩).2.bufRef ≠ 0 ∧
    Part000.getBytesAt (Part000.cloneAt [[[1]]] ⟨0, none⟩).1 ⟨0, none⟩ =
      Part000.getBytesAt [[[1]]] ⟨0, none⟩ ∧
    Part000.getBytesAt
        (Part000.updateAtState (Part000.cloneAt [[[1]]] ⟨0, none⟩).1
          (Part000.cloneAt [[[1]]] ⟨0, none⟩).2 (.vBool true)) ⟨0, none⟩ =
      Part000.getBytesAt [[[1]]] ⟨0, none⟩ ∧
    Part000.getBytesAt
        (Part000.updateAtState (Part000.cloneAt [[[1]]] ⟨0, none⟩).1 ⟨0, none⟩
          (.vBool true)) (Part000.cloneAt [[[1]]] ⟨0, none⟩).2 =
      Part000.getBytesAt (Part000.cloneAt [[[1]]] ⟨0, none⟩).1
        (Part000.cloneAt [[[1]]] ⟨0, none⟩).2 :=
  claim8_clone_isolation [[[1]]] ⟨0, none⟩ (.vBool true) (by decide)

theorem hexVal?_facts {c : Char} {v : Nat} (h : hexVal? c = some v) :
    v ≤ 15 ∧ isJsSpace c = false ∧ c.toNat ≠ 43 ∧ c.toNat ≠ 45 ∧
      c.toNat ≠ 120 ∧ c.toNat ≠ 88 := by
  unfold hexVal? at h
  dsimp only at h
  split_ifs at h with h1 h2 h3 <;> cases h <;>
    refine ⟨by omega, by simp [isJsSpace]; omega, by omega, by omega, by omega, by omega⟩

theorem parseIntHex_pair {c1 c2 : Char} {v1 v2 : Nat}
    (h1 : hexVal? c1 = some v1) (h2 : hexVal? c2 = some v2) :
    parseIntHex [c1, c2] = some ((16 * v1 + v2 : Nat) : Int) := by
  obtain ⟨_, hs1, hp1, hm1, _, _⟩ := hexVal?_facts h1
  obtain ⟨_, _, _, _, hx2, hX2⟩ := hexVal?_facts h2
  rw [parseIntHex, if_neg (by simp [hs1]), if_neg hm1, if_neg hp1,
    if_neg (by rintro ⟨_, hc⟩; omega), h1, h2]
  simp

theorem toUint8_pair {v1 v2 : Nat} (hv1 : v1 ≤ 15) (hv2 : v2 ≤ 15) :
    toUint8 (some ((16 * v1 + v2 : Nat) : Int)) = 16 * v1 + v2 := by
  simp only [toUint8]
  omega

theorem drop_take_two {a : Type} (l : List a) (i : Nat) (d : a) (h : i + 1 < l.length) :
    (l.drop i).take 2 = [l.getD i d, l.getD (i + 1) d] := by
  induction l generalizing i with
  | nil => simp at h
  | cons x xs ih =>
    cases i with
    | zero =>
      cases xs with
      | nil => simp at h
      | cons y ys => simp
    | succ j =>
      simp only [List.drop_succ_cons, List.getD_cons_succ]
      exact ih j (by simpa using h)

theorem hexDecode32_spec (body : List Char) (hlen : body.length = 64)
    (hhex : ∀ c ∈ body, (hexVal? c).isSome) :
    hexDecode32 body = specFixedHashBytes body := by
  unfold hexDecode32 specFixedHashBytes
  apply List.map_congr_left
  intro i hi
  rw [List.mem_range] at hi
  have h2 : 2 * i + 1 < body.length := by omega
  rw [drop_take_two body (2 * i) ' ' (by omega)]
  have hc1 : (hexVal? (body.getD (2 * i) ' ')).isSome := by
    rw [List.getD_eq_getElem body ' ' (by omega : 2 * i < body.length)]
    exact hhex _ (List.getElem_mem _)
  have hc2 : (hexVal? (body.getD (2 * i + 1) ' ')).isSome := by
    rw [List.getD_eq_getElem body ' ' h2]
    exact hhex _ (List.getElem_mem _)
  obtain ⟨v1, hv1⟩ := Option.isSome_iff_exists.mp hc1
  obtain ⟨v2, hv2⟩ := Option.isSome_iff_exists.mp hc2
  rw [parseIntHex_pair hv1 hv2, hv1, hv2]
  exact toUint8_pair (hexVal?_facts hv1).1 (hexVal?_facts hv2).1

/-- C3, confirmed. A string of the two characters `0x` followed by 64 hex
digits (total length 66) encodes, in both variants, to exactly 32 bytes
where byte `i` is the value of hex characters `2i` and `2i+1` of the body;
every string not matching the prefix-and-length pattern is returned as its
raw UTF-8 bytes with no length prefix and no terminator. (A 66-character
`0x` string whose body contains non-hex characters is the spec's declared
implementation-defined malformed-hex case and is outside what this claim
describes.) -/
theorem claim3_string_encoding (s : List Char) :
    (∀ body : List Char, s = '0' :: 'x' :: body → body.length = 64 →
      (∀ c ∈ body, (hexVal? c).isSome) →
      IndexTs.encodeInputAsBytes (.vStr s) = some (specFixedHashBytes body) ∧
      (∀ ctx, Part000.encodeInputAsBytes (.vStr s) ctx = some (specFixedHashBytes body)) ∧
      (specFixedHashBytes body).length = 32) ∧
    (startsWith0x s = false ∨ s.length ≠ 66 →
      IndexTs.encodeInputAsBytes (.vStr s) = some (utf8 s) ∧
      ∀ ctx, Part000.encodeInputAsBytes (.vStr s) ctx = some (utf8 s)) := by
  constructor
  · rintro body rfl hlen hhex
    have hstr : encodeString ('0' :: 'x' :: body) = specFixedHashBytes body := by
      rw [encodeString, if_pos]
      · rw [show ('0' :: 'x' :: body).drop 2 = body from rfl]
        exact hexDecode32_spec body hlen hhex
      · simp [startsWith0x, hlen]
    refine ⟨?_, fun ctx => ?_, by simp [specFixedHashBytes]⟩
    · rw [IndexTs.encodeInputAsBytes, hstr]
    · rw [Part000.encodeInputAsBytes, hstr]
  · intro hnot
    have hstr : encodeString s = utf8 s := by
      rw [encodeString, if_neg]
      rcases hnot with hnot | hnot <;> simp [hnot]
    exact ⟨by rw [IndexTs.encodeInputAsBytes, hstr],
      fun ctx => by rw [Part000.encodeInputAsBytes, hstr]⟩

/-- C3, witness: the FixedHash branch at the 66-character string of `0x`
followed by 64 zeros, and the UTF-8 branch at `"hi"`. -/
theorem claim3_witness :
    IndexTs.encodeInputAsBytes (.vStr ('0' :: 'x' :: List.replicate 64 '0')) =
      some (specFixedHashBytes (List.replicate 64 '0')) ∧
    IndexTs.encodeInputAsBytes (.vStr ['h', 'i']) = some (utf8 ['h', 'i']) :=
  ⟨((claim3_string_encoding ('0' :: 'x' :: List.replicate 64 '0')).1
      (List.replicate 64 '0') rfl (by simp)
      (fun c hc => by rw [List.eq_of_mem_replicate hc]; decide)).1,
   ((claim3_string_encoding ['h', 'i']).2 (Or.inr (by decide))).1⟩
